import Mathlib

set_option maxRecDepth 16384

/-! Shallow embedding of the streaming base64 codec of src/sandstorm/util.c++
    (base64_encode_value, base64_encode_block, base64_encode_blockend,
    base64Encode, base64_decode_value, base64_decode_block, base64Decode).
    Bytes and characters are modelled as Nat values below 256.  In the C
    source the byte-wide operands promote to int before the masks below 256
    are applied, so on a byte value the C bit operations agree with the Nat
    bitwise operations used here; signed-char behaviour is modelled
    explicitly where it matters (base64_decode_value). -/

/-- ASCII codes of a string, used to state inputs and expected outputs. -/
def asciiOf (s : String) : List Nat := s.toList.map Char.toNat

/-- The encode table of base64_encode_value (a 64-character C string). -/
def encoding : String :=
  "ABCDEFGHIJKLMNOPQRSTUVWXYZabcdefghijklmnopqrstuvwxyz0123456789+/"

/-- base64_encode_value: map a 6-bit value to its alphabet character; values
    above 63 (only reachable as a sentinel) give 61, the pad character.
    Every call site passes a masked value in 0..63, so the C signed-char
    argument is never negative and Nat faithfully models it. -/
def base64_encode_value (v : Nat) : Nat :=
  if v > 63 then 61 else (asciiOf encoding).getD v 0

/-- base64_encodestep: step_A, step_B, step_C. -/
inductive EncStep
| A
| B
| C
deriving DecidableEq, Repr

/-- base64_encodestate: resumable step, pending output bits (result), and
    the count of 4-character groups emitted since the last line break. -/
structure EncState where
  step : EncStep
  result : Nat
  stepcount : Nat
deriving DecidableEq, Repr

/-- CHARS_PER_LINE of the source. -/
def CHARS_PER_LINE : Nat := 72

/-- base64_init_encodestate: step_A, result 0, stepcount 0. -/
def base64_init_encodestate : EncState := ⟨EncStep.A, 0, 0⟩

/-- Emit one output character in front of the rest of an encoder run
    (models one `*codechar++ = e` store). -/
def consOut (e : Nat) (p : List Nat × EncState) : List Nat × EncState :=
  (e :: p.1, p.2)

/-- The resumable loop of base64_encode_block, entered at the step recorded
    in the state; returns the emitted characters and the saved state.  The
    three branches are the switch cases step_A, step_B, step_C of the C
    source; the newline branch models `++stepcount` followed by the
    comparison with CHARS_PER_LINE/4 and the reset to 0. -/
def encode_go (bl : Bool) : EncStep → Nat → Nat → List Nat → List Nat × EncState
  | s, result, cnt, [] => ([], ⟨s, result, cnt⟩)
  | EncStep.A, _, cnt, b :: rest =>
      consOut (base64_encode_value ((b &&& 0xfc) >>> 2))
        (encode_go bl EncStep.B ((b &&& 0x3) <<< 4) cnt rest)
  | EncStep.B, result, cnt, b :: rest =>
      consOut (base64_encode_value (result ||| ((b &&& 0xf0) >>> 4)))
        (encode_go bl EncStep.C ((b &&& 0xf) <<< 2) cnt rest)
  | EncStep.C, result, cnt, b :: rest =>
      if bl ∧ cnt + 1 = CHARS_PER_LINE / 4 then
        consOut (base64_encode_value (result ||| ((b &&& 0xc0) >>> 6)))
          (consOut (base64_encode_value (b &&& 0x3f))
            (consOut 10 (encode_go bl EncStep.A (b &&& 0x3f) 0 rest)))
      else
        consOut (base64_encode_value (result ||| ((b &&& 0xc0) >>> 6)))
          (consOut (base64_encode_value (b &&& 0x3f))
            (encode_go bl EncStep.A (b &&& 0x3f) (cnt + 1) rest))

/-- base64_encode_block: feed a slice of input bytes through the encoder
    state machine; returns the characters written and the updated state. -/
def base64_encode_block (input : List Nat) (st : EncState) (bl : Bool) :
    List Nat × EncState :=
  encode_go bl st.step st.result st.stepcount input

/-- base64_encode_blockend: flush the pending partial group with padding
    (61 is the pad character) and, after the `++stepcount` of the padding
    branches, append a newline (10) when line breaking is on and the
    line has at least one group on it. -/
def base64_encode_blockend (st : EncState) (bl : Bool) : List Nat :=
  match st.step with
  | EncStep.B =>
      [base64_encode_value st.result, 61, 61]
        ++ (if bl ∧ 0 < st.stepcount + 1 then [10] else [])
  | EncStep.C =>
      [base64_encode_value st.result, 61]
        ++ (if bl ∧ 0 < st.stepcount + 1 then [10] else [])
  | EncStep.A => if bl ∧ 0 < st.stepcount then [10] else []

/-- The numChars computation of the one-shot driver base64Encode:
    (n + 2) / 3 * 4 data and pad characters, plus one newline per
    (possibly partial) 72-character line when line breaking is on. -/
def base64EncodeNumChars (n : Nat) (breakLines : Bool) : Nat :=
  let numChars := (n + 2) / 3 * 4
  if breakLines then
    numChars + (numChars / CHARS_PER_LINE
      + if numChars % CHARS_PER_LINE > 0 then 1 else 0)
  else numChars

/-- One-shot driver base64Encode: initialise a state, run
    base64_encode_block over the whole input, then base64_encode_blockend.
    The C driver writes both outputs into a buffer of base64EncodeNumChars
    bytes and asserts the written total equals that size; the returned
    string is exactly the concatenation of the two outputs. -/
def base64Encode (input : List Nat) (breakLines : Bool) : List Nat :=
  (base64_encode_block input base64_init_encodestate breakLines).1
    ++ base64_encode_blockend
        (base64_encode_block input base64_init_encodestate breakLines).2
        breakLines

/-- The decode table of base64_decode_value: 80 entries, indexed by
    character value minus 43; -1 and -2 mark invalid characters. -/
def decoding : List Int :=
  [62, -1, -1, -1, 63, 52, 53, 54, 55, 56, 57, 58, 59, 60, 61, -1, -1, -1,
   -2, -1, -1, -1,
   0, 1, 2, 3, 4, 5, 6, 7, 8, 9, 10, 11, 12, 13, 14, 15, 16, 17, 18, 19,
   20, 21, 22, 23, 24, 25, -1, -1, -1, -1, -1, -1,
   26, 27, 28, 29, 30, 31, 32, 33, 34, 35, 36, 37, 38, 39, 40, 41, 42, 43,
   44, 45, 46, 47, 48, 49, 50, 51]

/-- decoding_size = sizeof(decoding) = 80 in the source. -/
def decoding_size : Int := decoding.length

/-- base64_decode_value on a byte c (0..255).  The C argument is a signed
    char, so bytes at and above 128 are negative; `value_in -= 43` wraps in
    8 bits; the guard rejects value_in < 0 or value_in > decoding_size.
    The table read decoding[value_in] is modelled with List.get?, so the
    out-of-bounds read at index 80 (the guard is > 80, not >= 80, while the
    table has exactly 80 entries) yields none. -/
def base64_decode_value (c : Nat) : Option Int :=
  let sc : Int := if c < 128 then (c : Int) else (c : Int) - 256
  let v : Int := (sc - 43 + 128) % 256 - 128
  if v < 0 ∨ decoding_size < v then some (-1)
  else decoding.get? v.toNat

/-- base64_decodestep: step_a, step_b, step_c, step_d. -/
inductive DecStep
| a
| b
| c
| d
deriving DecidableEq, Repr

/-- The resumable loop of base64_decode_block, entered at the step recorded
    in the state, with pend the partially assembled byte held at the write
    position.  Characters whose table value is negative are skipped; a
    table lookup that goes out of bounds (see base64_decode_value) makes
    the whole run undefined, modelled as none.  On end of input the bytes
    completed so far are returned (the C function returns their count and
    saves the carry; the one-shot driver truncates the buffer to it). -/
def base64_decode_block : DecStep → Nat → List Nat → Option (List Nat)
  | _, _, [] => some []
  | s, pend, ch :: rest =>
    match base64_decode_value ch with
    | none => none
    | some f =>
      if f < 0 then base64_decode_block s pend rest
      else
        match s with
        | DecStep.a => base64_decode_block DecStep.b ((f.toNat &&& 0x3f) <<< 2) rest
        | DecStep.b => Option.map (fun l => (pend ||| ((f.toNat &&& 0x30) >>> 4)) :: l)
            (base64_decode_block DecStep.c ((f.toNat &&& 0xf) <<< 4) rest)
        | DecStep.c => Option.map (fun l => (pend ||| ((f.toNat &&& 0x3c) >>> 2)) :: l)
            (base64_decode_block DecStep.d ((f.toNat &&& 0x3) <<< 6) rest)
        | DecStep.d => Option.map (fun l => (pend ||| (f.toNat &&& 0x3f)) :: l)
            (base64_decode_block DecStep.a 0 rest)

/-- One-shot driver base64Decode: fresh state at step_a, one call to
    base64_decode_block over the whole input, truncate to the bytes
    produced. -/
def base64Decode (input : List Nat) : Option (List Nat) :=
  base64_decode_block DecStep.a 0 input

/-- A character is valid when its table value is a 6-bit value (not the
    negative invalid markers). -/
def isValidB64 (c : Nat) : Bool :=
  match base64_decode_value c with
  | some f => decide (0 ≤ f)
  | none => false

/-- Number of valid characters of an input. -/
def validCount (t : List Nat) : Nat := (t.filter isValidB64).length

/-- Buffer-access-checked run of base64_decode_block inside the driver:
    the same control flow, but every load/store of the output buffer
    (positions 0, p, p+1 per the C stores) is checked against the buffer
    size; the result is the count of bytes written, or none if some access
    is out of bounds or a table lookup is.  The final [] case models the
    carry save `state_in->plainchar = *plainchar`, a load at position p;
    step_b and step_c access position p (`*plainchar++ |= ...`) and then
    store at position p+1; step_a and step_d access position p only. -/
def base64_decode_block_checked (bufSize : Nat) :
    DecStep → Nat → List Nat → Option Nat
  | _, p, [] => if p < bufSize then some p else none
  | s, p, ch :: rest =>
    match base64_decode_value ch with
    | none => none
    | some f =>
      if f < 0 then base64_decode_block_checked bufSize s p rest
      else
        match s with
        | DecStep.a =>
            if p < bufSize then base64_decode_block_checked bufSize DecStep.b p rest
            else none
        | DecStep.b =>
            if p < bufSize then
              if p + 1 < bufSize then
                base64_decode_block_checked bufSize DecStep.c (p + 1) rest
              else none
            else none
        | DecStep.c =>
            if p < bufSize then
              if p + 1 < bufSize then
                base64_decode_block_checked bufSize DecStep.d (p + 1) rest
              else none
            else none
        | DecStep.d =>
            if p < bufSize then base64_decode_block_checked bufSize DecStep.a (p + 1) rest
            else none

/-- Buffer-access-checked base64Decode driver: the buffer holds
    (n * 6 + 7) / 8 bytes; before the switch the C code stores the carry
    with `*plainchar = state_in->plainchar`, an access at position 0,
    checked here before entering the loop. -/
def base64Decode_checked (input : List Nat) : Option Nat :=
  let bufSize := (input.length * 6 + 7) / 8
  if 0 < bufSize then base64_decode_block_checked bufSize DecStep.a 0 input
  else none

/-- The step the encoder is left at after consuming n % 3 = m bytes of the
    final group. -/
def stepOfMod (m : Nat) : EncStep :=
  match m with
  | 0 => EncStep.A
  | 1 => EncStep.B
  | _ => EncStep.C

/-- Repeated base64_encode_block calls threading one encoder state, the way
    a streaming caller would make them: the concatenated output characters
    and the final state. -/
def encodeChunks (chunks : List (List Nat)) (st : EncState) (bl : Bool) :
    List Nat × EncState :=
  match chunks with
  | [] => ([], st)
  | c :: rest =>
    ((base64_encode_block c st bl).1
        ++ (encodeChunks rest (base64_encode_block c st bl).2 bl).1,
     (encodeChunks rest (base64_encode_block c st bl).2 bl).2)

/-- Feed sub-slices one by one through a single encoder state, then call
    base64_encode_blockend once. -/
def chunkedEncode (chunks : List (List Nat)) (bl : Bool) : List Nat :=
  (encodeChunks chunks base64_init_encodestate bl).1
    ++ base64_encode_blockend (encodeChunks chunks base64_init_encodestate bl).2 bl

/-- Number of characters of the current 4-character group already consumed
    when the decoder stands at a given step. -/
def decCharsSeen : DecStep → Nat
  | DecStep.a => 0
  | DecStep.b => 1
  | DecStep.c => 2
  | DecStep.d => 3

/-- Number of bytes of the current group already emitted when the decoder
    stands at a given step. -/
def decBytesDone : DecStep → Nat
  | DecStep.a => 0
  | DecStep.b => 0
  | DecStep.c => 1
  | DecStep.d => 2

/-! ### Facts about the symbol tables -/

theorem decode_value_10 : base64_decode_value 10 = some (-1) := by decide

theorem decode_value_61 : base64_decode_value 61 = some (-2) := by decide

theorem encval_spec : ∀ v : Fin 64,
    base64_encode_value v.val ≠ 10 ∧
    base64_decode_value (base64_encode_value v.val) = some ((v.val : Int)) := by decide

theorem encode_value_ne_nl (v : Nat) : base64_encode_value v ≠ 10 := by
  by_cases h : v > 63
  · simp [base64_encode_value, h]
  · exact (encval_spec ⟨v, by omega⟩).1

theorem decode_encode_value (v : Nat) (h : v < 64) :
    base64_decode_value (base64_encode_value v) = some (v : Int) :=
  (encval_spec ⟨v, h⟩).2

/-! ### Bounds for the masked values fed to the tables -/

theorem maskA_lt (x : Nat) : (x &&& 0xfc) >>> 2 < 64 := by
  have h : x &&& 0xfc ≤ 0xfc := Nat.and_le_right
  rw [Nat.shiftRight_eq_div_pow]; omega

theorem maskB_lt (x : Nat) : x &&& 0x3 < 4 := by
  have h : x &&& 0x3 ≤ 0x3 := Nat.and_le_right
  omega

theorem maskHi_lt (x : Nat) : (x &&& 0xf0) >>> 4 < 16 := by
  have h : x &&& 0xf0 ≤ 0xf0 := Nat.and_le_right
  rw [Nat.shiftRight_eq_div_pow]; omega

theorem maskLo_lt (x : Nat) : x &&& 0xf < 16 := by
  have h : x &&& 0xf ≤ 0xf := Nat.and_le_right
  omega

theorem maskC_lt (x : Nat) : (x &&& 0xc0) >>> 6 < 4 := by
  have h : x &&& 0xc0 ≤ 0xc0 := Nat.and_le_right
  rw [Nat.shiftRight_eq_div_pow]; omega

theorem mask6_lt (x : Nat) : x &&& 0x3f < 64 := by
  have h : x &&& 0x3f ≤ 0x3f := Nat.and_le_right
  omega

theorem shift4_lt (a : Nat) (ha : a < 4) : a <<< 4 < 64 := by
  rw [Nat.shiftLeft_eq]; omega

theorem shift2_lt (l : Nat) (hl : l < 16) : l <<< 2 < 64 := by
  rw [Nat.shiftLeft_eq]; omega

theorem combineB_lt_fin : ∀ (a : Fin 4) (h : Fin 16), (a.val <<< 4) ||| h.val < 64 := by
  decide

theorem combineC_lt_fin : ∀ (l : Fin 16) (h : Fin 4), (l.val <<< 2) ||| h.val < 64 := by
  decide

theorem combineB_lt (a h : Nat) (ha : a < 4) (hh : h < 16) : (a <<< 4) ||| h < 64 :=
  combineB_lt_fin ⟨a, ha⟩ ⟨h, hh⟩

theorem combineC_lt (l h : Nat) (hl : l < 16) (hh : h < 4) : (l <<< 2) ||| h < 64 :=
  combineC_lt_fin ⟨l, hl⟩ ⟨h, hh⟩

/-! ### Bit-level identities used for the round trip, over Fin, by decide -/

theorem sextract_b_fin : ∀ (a : Fin 4) (h : Fin 16),
    ((((a.val <<< 4) ||| h.val) &&& 0x30) >>> 4 = a.val) ∧
    (((a.val <<< 4) ||| h.val) &&& 0xf = h.val) := by decide

theorem sextract_c_fin : ∀ (l : Fin 16) (h : Fin 4),
    ((((l.val <<< 2) ||| h.val) &&& 0x3c) >>> 2 = l.val) ∧
    (((l.val <<< 2) ||| h.val) &&& 0x3 = h.val) := by decide

theorem byte_id_1_fin : ∀ x : Fin 256,
    ((((x.val &&& 0xfc) >>> 2) &&& 0x3f) <<< 2) ||| (x.val &&& 0x3) = x.val := by decide

theorem byte_id_2_fin : ∀ x : Fin 256,
    (((x.val &&& 0xf0) >>> 4) <<< 4) ||| (x.val &&& 0xf) = x.val := by decide

theorem byte_id_3_fin : ∀ x : Fin 256,
    (((x.val &&& 0xc0) >>> 6) <<< 6) ||| ((x.val &&& 0x3f) &&& 0x3f) = x.val := by decide

theorem tail1_id_fin : ∀ x : Fin 256,
    ((((x.val &&& 0xfc) >>> 2) &&& 0x3f) <<< 2)
      ||| ((((x.val &&& 0x3) <<< 4) &&& 0x30) >>> 4) = x.val := by decide

theorem tail2_id_fin : ∀ x : Fin 256,
    (((x.val &&& 0xf0) >>> 4) <<< 4)
      ||| ((((x.val &&& 0xf) <<< 2) &&& 0x3c) >>> 2) = x.val := by decide

theorem sextract_b1 (a h : Nat) (ha : a < 4) (hh : h < 16) :
    (((a <<< 4) ||| h) &&& 0x30) >>> 4 = a := (sextract_b_fin ⟨a, ha⟩ ⟨h, hh⟩).1

theorem sextract_b2 (a h : Nat) (ha : a < 4) (hh : h < 16) :
    ((a <<< 4) ||| h) &&& 0xf = h := (sextract_b_fin ⟨a, ha⟩ ⟨h, hh⟩).2

theorem sextract_c1 (l h : Nat) (hl : l < 16) (hh : h < 4) :
    (((l <<< 2) ||| h) &&& 0x3c) >>> 2 = l := (sextract_c_fin ⟨l, hl⟩ ⟨h, hh⟩).1

theorem sextract_c2 (l h : Nat) (hl : l < 16) (hh : h < 4) :
    ((l <<< 2) ||| h) &&& 0x3 = h := (sextract_c_fin ⟨l, hl⟩ ⟨h, hh⟩).2

theorem byte_id_1 (x : Nat) (hx : x < 256) :
    ((((x &&& 0xfc) >>> 2) &&& 0x3f) <<< 2) ||| (x &&& 0x3) = x := byte_id_1_fin ⟨x, hx⟩

theorem byte_id_2 (x : Nat) (hx : x < 256) :
    (((x &&& 0xf0) >>> 4) <<< 4) ||| (x &&& 0xf) = x := byte_id_2_fin ⟨x, hx⟩

theorem byte_id_3 (x : Nat) (hx : x < 256) :
    (((x &&& 0xc0) >>> 6) <<< 6) ||| ((x &&& 0x3f) &&& 0x3f) = x := byte_id_3_fin ⟨x, hx⟩

theorem tail1_id (x : Nat) (hx : x < 256) :
    ((((x &&& 0xfc) >>> 2) &&& 0x3f) <<< 2)
      ||| ((((x &&& 0x3) <<< 4) &&& 0x30) >>> 4) = x := tail1_id_fin ⟨x, hx⟩

theorem tail2_id (x : Nat) (hx : x < 256) :
    (((x &&& 0xf0) >>> 4) <<< 4)
      ||| ((((x &&& 0xf) <<< 2) &&& 0x3c) >>> 2) = x := tail2_id_fin ⟨x, hx⟩

/-! ### Stepping lemmas for the decoder loop -/

theorem decode_block_nil (s : DecStep) (pend : Nat) :
    base64_decode_block s pend [] = some [] := by cases s <;> rfl

theorem decode_block_skip (s : DecStep) (pend ch : Nat) (rest : List Nat)
    (f : Int) (hch : base64_decode_value ch = some f) (hf : f < 0) :
    base64_decode_block s pend (ch :: rest) = base64_decode_block s pend rest := by
  simp [base64_decode_block, hch, hf]

theorem decode_block_skip_nl (s : DecStep) (pend : Nat) (rest : List Nat) :
    base64_decode_block s pend (10 :: rest) = base64_decode_block s pend rest :=
  decode_block_skip s pend 10 rest (-1) decode_value_10 (by norm_num)

theorem decode_block_skip_pad (s : DecStep) (pend : Nat) (rest : List Nat) :
    base64_decode_block s pend (61 :: rest) = base64_decode_block s pend rest :=
  decode_block_skip s pend 61 rest (-2) decode_value_61 (by norm_num)

theorem decode_block_step_a (pend v : Nat) (hv : v < 64) (rest : List Nat) :
    base64_decode_block DecStep.a pend (base64_encode_value v :: rest)
      = base64_decode_block DecStep.b ((v &&& 0x3f) <<< 2) rest := by
  have h := decode_encode_value v hv
  simp only [base64_decode_block, h]
  rw [if_neg (not_lt.mpr (Int.natCast_nonneg v))]
  simp [Int.toNat_natCast]

theorem decode_block_step_b (pend v : Nat) (hv : v < 64) (rest : List Nat) :
    base64_decode_block DecStep.b pend (base64_encode_value v :: rest)
      = Option.map (fun l => (pend ||| ((v &&& 0x30) >>> 4)) :: l)
          (base64_decode_block DecStep.c ((v &&& 0xf) <<< 4) rest) := by
  have h := decode_encode_value v hv
  simp only [base64_decode_block, h]
  rw [if_neg (not_lt.mpr (Int.natCast_nonneg v))]
  simp [Int.toNat_natCast]

theorem decode_block_step_c (pend v : Nat) (hv : v < 64) (rest : List Nat) :
    base64_decode_block DecStep.c pend (base64_encode_value v :: rest)
      = Option.map (fun l => (pend ||| ((v &&& 0x3c) >>> 2)) :: l)
          (base64_decode_block DecStep.d ((v &&& 0x3) <<< 6) rest) := by
  have h := decode_encode_value v hv
  simp only [base64_decode_block, h]
  rw [if_neg (not_lt.mpr (Int.natCast_nonneg v))]
  simp [Int.toNat_natCast]

theorem decode_block_step_d (pend v : Nat) (hv : v < 64) (rest : List Nat) :
    base64_decode_block DecStep.d pend (base64_encode_value v :: rest)
      = Option.map (fun l => (pend ||| (v &&& 0x3f)) :: l)
          (base64_decode_block DecStep.a 0 rest) := by
  have h := decode_encode_value v hv
  simp only [base64_decode_block, h]
  rw [if_neg (not_lt.mpr (Int.natCast_nonneg v))]
  simp [Int.toNat_natCast]

theorem decode_block_if_nl (s : DecStep) (pend : Nat) (c : Prop) [Decidable c] :
    base64_decode_block s pend (if c then [10] else []) = some [] := by
  split
  · rw [decode_block_skip_nl, decode_block_nil]
  · rw [decode_block_nil]

/-! ### Round trip: decoding an encoder run returns the input bytes -/

theorem decode_encode_aux :
    ∀ (b : List Nat), (∀ x ∈ b, x < 256) → ∀ (r cnt : Nat) (bl : Bool),
      base64_decode_block DecStep.a 0
        ((encode_go bl EncStep.A r cnt b).1
          ++ base64_encode_blockend (encode_go bl EncStep.A r cnt b).2 bl)
        = some b
  | [], _, r, cnt, bl => by
      simp only [encode_go, base64_encode_blockend, List.nil_append]
      exact decode_block_if_nl _ _ _
  | [b1], hb, r, cnt, bl => by
      have h1 : b1 < 256 := hb b1 (by simp)
      simp only [encode_go, consOut, base64_encode_blockend, List.cons_append,
        List.nil_append]
      rw [decode_block_step_a _ _ (maskA_lt b1)]
      rw [decode_block_step_b _ _ (shift4_lt _ (maskB_lt b1))]
      rw [decode_block_skip_pad, decode_block_skip_pad]
      rw [decode_block_if_nl]
      simp only [Option.map_some']
      rw [tail1_id b1 h1]
  | [b1, b2], hb, r, cnt, bl => by
      have h1 : b1 < 256 := hb b1 (by simp)
      have h2 : b2 < 256 := hb b2 (by simp)
      simp only [encode_go, consOut, base64_encode_blockend, List.cons_append,
        List.nil_append]
      rw [decode_block_step_a _ _ (maskA_lt b1)]
      rw [decode_block_step_b _ _ (combineB_lt _ _ (maskB_lt b1) (maskHi_lt b2))]
      rw [decode_block_step_c _ _ (shift2_lt _ (maskLo_lt b2))]
      rw [decode_block_skip_pad]
      rw [decode_block_if_nl]
      simp only [Option.map_some']
      rw [sextract_b1 _ _ (maskB_lt b1) (maskHi_lt b2),
        sextract_b2 _ _ (maskB_lt b1) (maskHi_lt b2),
        byte_id_1 b1 h1, tail2_id b2 h2]
  | b1 :: b2 :: b3 :: rest, hb, r, cnt, bl => by
      have h1 : b1 < 256 := hb b1 (by simp)
      have h2 : b2 < 256 := hb b2 (by simp)
      have h3 : b3 < 256 := hb b3 (by simp)
      have hrest : ∀ x ∈ rest, x < 256 := fun x hx => hb x (by simp [hx])
      by_cases hc : bl ∧ cnt + 1 = CHARS_PER_LINE / 4
      · simp only [encode_go, consOut, if_pos hc, List.cons_append]
        rw [decode_block_step_a _ _ (maskA_lt b1)]
        rw [decode_block_step_b _ _ (combineB_lt _ _ (maskB_lt b1) (maskHi_lt b2))]
        rw [decode_block_step_c _ _ (combineC_lt _ _ (maskLo_lt b2) (maskC_lt b3))]
        rw [decode_block_step_d _ _ (mask6_lt b3)]
        rw [decode_block_skip_nl]
        rw [decode_encode_aux rest hrest (b3 &&& 0x3f) 0 bl]
        simp only [Option.map_some']
        rw [sextract_b1 _ _ (maskB_lt b1) (maskHi_lt b2),
          sextract_b2 _ _ (maskB_lt b1) (maskHi_lt b2),
          sextract_c1 _ _ (maskLo_lt b2) (maskC_lt b3),
          sextract_c2 _ _ (maskLo_lt b2) (maskC_lt b3),
          byte_id_1 b1 h1, byte_id_2 b2 h2, byte_id_3 b3 h3]
      · simp only [encode_go, consOut, if_neg hc, List.cons_append]
        rw [decode_block_step_a _ _ (maskA_lt b1)]
        rw [decode_block_step_b _ _ (combineB_lt _ _ (maskB_lt b1) (maskHi_lt b2))]
        rw [decode_block_step_c _ _ (combineC_lt _ _ (maskLo_lt b2) (maskC_lt b3))]
        rw [decode_block_step_d _ _ (mask6_lt b3)]
        rw [decode_encode_aux rest hrest (b3 &&& 0x3f) (cnt + 1) bl]
        simp only [Option.map_some']
        rw [sextract_b1 _ _ (maskB_lt b1) (maskHi_lt b2),
          sextract_b2 _ _ (maskB_lt b1) (maskHi_lt b2),
          sextract_c1 _ _ (maskLo_lt b2) (maskC_lt b3),
          sextract_c2 _ _ (maskLo_lt b2) (maskC_lt b3),
          byte_id_1 b1 h1, byte_id_2 b2 h2, byte_id_3 b3 h3]

/-! ### Chunked encoding agrees with one-shot encoding -/

theorem encode_go_append (ys : List Nat) (bl : Bool) :
    ∀ (xs : List Nat) (s : EncStep) (r cnt : Nat),
      encode_go bl s r cnt (xs ++ ys)
        = ((encode_go bl s r cnt xs).1
            ++ (encode_go bl (encode_go bl s r cnt xs).2.step
                  (encode_go bl s r cnt xs).2.result
                  (encode_go bl s r cnt xs).2.stepcount ys).1,
           (encode_go bl (encode_go bl s r cnt xs).2.step
              (encode_go bl s r cnt xs).2.result
              (encode_go bl s r cnt xs).2.stepcount ys).2) := by
  intro xs
  induction xs with
  | nil => intro s r cnt; simp [encode_go]
  | cons x xs ih =>
      intro s r cnt
      cases s
      case A => simp [List.cons_append, encode_go, consOut, ih]
      case B => simp [List.cons_append, encode_go, consOut, ih]
      case C =>
        by_cases hc : bl ∧ cnt + 1 = CHARS_PER_LINE / 4
        · simp [List.cons_append, encode_go, consOut, if_pos hc, ih]
        · simp [List.cons_append, encode_go, consOut, if_neg hc, ih]

theorem encode_block_append (xs ys : List Nat) (st : EncState) (bl : Bool) :
    base64_encode_block (xs ++ ys) st bl
      = ((base64_encode_block xs st bl).1
          ++ (base64_encode_block ys (base64_encode_block xs st bl).2 bl).1,
        (base64_encode_block ys (base64_encode_block xs st bl).2 bl).2) := by
  simpa [base64_encode_block] using
    encode_go_append ys bl xs st.step st.result st.stepcount

theorem encodeChunks_eq_block (chunks : List (List Nat)) :
    ∀ (st : EncState) (bl : Bool),
      encodeChunks chunks st bl = base64_encode_block chunks.flatten st bl := by
  induction chunks with
  | nil => intro st bl; simp [encodeChunks, base64_encode_block, encode_go]
  | cons c rest ih =>
      intro st bl
      simp [encodeChunks, List.flatten, encode_block_append, ih]

/-! ### Exact output length of a full encoder run -/

theorem consOut_fst (e : Nat) (p : List Nat × EncState) : (consOut e p).1 = e :: p.1 := rfl

theorem consOut_snd (e : Nat) (p : List Nat × EncState) : (consOut e p).2 = p.2 := rfl

theorem encode_full_len :
    ∀ (b : List Nat) (r cnt : Nat) (bl : Bool), (bl = true → cnt < 18) →
      ((encode_go bl EncStep.A r cnt b).1
        ++ base64_encode_blockend (encode_go bl EncStep.A r cnt b).2 bl).length
      = (b.length + 2) / 3 * 4
        + (if bl = true then
            (cnt + b.length / 3) / 18
              + (if b.length % 3 > 0 then 1
                 else if (cnt + b.length / 3) % 18 > 0 then 1 else 0)
           else 0)
  | [], r, cnt, bl, h => by
      cases bl
      · simp [encode_go, base64_encode_blockend]
      · have hcnt := h rfl
        by_cases hc : 0 < cnt <;>
          simp [encode_go, base64_encode_blockend, hc, Nat.div_eq_of_lt hcnt,
            Nat.mod_eq_of_lt hcnt]
  | [b1], r, cnt, bl, h => by
      cases bl
      · simp [encode_go, consOut, base64_encode_blockend]
      · have hcnt := h rfl
        simp [encode_go, consOut, base64_encode_blockend, Nat.div_eq_of_lt hcnt]
  | [b1, b2], r, cnt, bl, h => by
      cases bl
      · simp [encode_go, consOut, base64_encode_blockend]
      · have hcnt := h rfl
        simp [encode_go, consOut, base64_encode_blockend, Nat.div_eq_of_lt hcnt]
  | b1 :: b2 :: b3 :: rest, r, cnt, bl, h => by
      by_cases hc : bl = true ∧ cnt + 1 = CHARS_PER_LINE / 4
      · obtain ⟨hbl, hcnt18⟩ := hc
        subst hbl
        have hcnt : cnt + 1 = 18 := by simpa [CHARS_PER_LINE] using hcnt18
        have hrec := encode_full_len rest (b3 &&& 0x3f) 0 true (fun _ => by norm_num)
        simp only [encode_go, eq_self_iff_true, true_and, if_true] at hrec ⊢
        rw [if_pos hcnt18]
        simp only [consOut_fst, consOut_snd, List.cons_append, List.length_cons,
          List.length_append, Nat.zero_add] at hrec ⊢
        split_ifs at hrec ⊢ <;> omega
      · cases bl
        · have hrec := encode_full_len rest (b3 &&& 0x3f) (cnt + 1) false
            (fun hx => Bool.noConfusion hx)
          simp only [encode_go, Bool.false_eq_true, false_and, if_false] at hrec ⊢
          simp only [consOut_fst, consOut_snd, List.cons_append, List.length_cons,
            List.length_append, Nat.zero_add] at hrec ⊢
          omega
        · have hne : ¬ cnt + 1 = CHARS_PER_LINE / 4 := fun hx => hc ⟨rfl, hx⟩
          have hne18 : ¬ cnt + 1 = 18 := by
            intro hx
            exact hne (by simpa [CHARS_PER_LINE] using hx)
          have hrec := encode_full_len rest (b3 &&& 0x3f) (cnt + 1) true
            (fun _ => by have := h rfl; omega)
          simp only [encode_go, eq_self_iff_true, true_and, if_true] at hrec ⊢
          rw [if_neg hne]
          simp only [consOut_fst, consOut_snd, List.cons_append, List.length_cons,
            List.length_append, Nat.zero_add] at hrec ⊢
          split_ifs at hrec ⊢ <;> omega

/-! ### Claim theorems -/

/-- Claim C1: for every byte sequence b and every line-break setting lb,
    decoding the encoding of b yields b exactly:
    base64Decode (base64Encode b lb) = some b. -/
theorem claim_C1_roundtrip (b : List Nat) (lb : Bool) (hb : ∀ x ∈ b, x < 256) :
    base64Decode (base64Encode b lb) = some b :=
  decode_encode_aux b hb 0 0 lb

/-- Witness for claim C1 at the bytes of "Man" with line breaks enabled. -/
theorem claim_C1_roundtrip_witness :
    base64Decode (base64Encode [77, 97, 110] true) = some [77, 97, 110] :=
  claim_C1_roundtrip [77, 97, 110] true (by decide)

/-- Claim C2: the one-shot encoder output has exactly the precomputed
    length ceil(n/3)*4 plus, with line breaks, one newline per (possibly
    partial) 72-character line; hence the internal consistency assertion of
    base64Encode (written total = precomputed buffer size) holds for every
    input. -/
theorem claim_C2_exact_length (input : List Nat) (bl : Bool) :
    (base64Encode input bl).length = base64EncodeNumChars input.length bl := by
  have h := encode_full_len input 0 0 bl (fun _ => by norm_num)
  have e : base64Encode input bl
      = (encode_go bl EncStep.A 0 0 input).1
        ++ base64_encode_blockend (encode_go bl EncStep.A 0 0 input).2 bl := rfl
  rw [e, h]
  simp only [base64EncodeNumChars, CHARS_PER_LINE]
  split_ifs <;> omega

/-- Claim C5: feeding the input split into arbitrary consecutive sub-slices
    through repeated base64_encode_block calls on one state, followed by a
    single base64_encode_blockend, yields exactly the one-shot driver output
    on the concatenated input. -/
theorem claim_C5_chunked_eq (chunks : List (List Nat)) (bl : Bool) :
    chunkedEncode chunks bl = base64Encode chunks.flatten bl := by
  simp [chunkedEncode, base64Encode, encodeChunks_eq_block]

/-- Claim C6 (amended): base64_encode_blockend emits, at step_B, exactly one
    data character then two pads; at step_C, exactly ONE data character then
    one pad (the other two data characters of the final group were already
    written by base64_encode_block); at step_A, nothing; and it appends a
    final newline exactly when line breaking is on and the line is nonempty
    after the padding branch increments stepcount. -/
theorem claim_C6_amended (r cnt : Nat) (bl : Bool) :
    base64_encode_blockend ⟨EncStep.B, r, cnt⟩ bl
        = [base64_encode_value r, 61, 61] ++ (if bl = true then [10] else [])
      ∧ base64_encode_blockend ⟨EncStep.C, r, cnt⟩ bl
        = [base64_encode_value r, 61] ++ (if bl = true then [10] else [])
      ∧ base64_encode_blockend ⟨EncStep.A, r, cnt⟩ bl
        = (if bl = true ∧ 0 < cnt then [10] else []) := by
  refine ⟨?_, ?_, ?_⟩ <;> simp [base64_encode_blockend]

/-- Counterexample for claim C6 as stated: at step_C the finalizer emits one
    data character then one pad (2 characters total), not the claimed two
    data characters followed by a pad (3 characters). -/
theorem claim_C6_counterexample :
    base64_encode_blockend ⟨EncStep.C, 4, 0⟩ false = [69, 61]
      ∧ (base64_encode_blockend ⟨EncStep.C, 4, 0⟩ false).length ≠ 3 := by decide

/-- Claim C9: the standard encode test vectors and the empty-input cases. -/
theorem claim_C9_vectors :
    base64Encode [0x4D, 0x61, 0x6E] false = asciiOf "TWFu"
      ∧ base64Encode [0x4D, 0x61] false = asciiOf "TWE="
      ∧ base64Encode [0x4D] false = asciiOf "TQ=="
      ∧ base64Encode [] false = asciiOf ""
      ∧ base64Encode [] true = asciiOf "" := by decide

/-! ### Line-wrap boundary structure -/

theorem list_three_split (b : List Nat) (h3 : 3 ≤ b.length) :
    ∃ x y z t, b = x :: y :: z :: t := by
  match b with
  | x :: y :: z :: t => exact ⟨x, y, z, t, rfl⟩
  | [] => simp at h3
  | [x] => simp at h3
  | [x, y] => simp at h3

theorem encode_wrap_line (k : Nat) :
    ∀ (b : List Nat) (r cnt : Nat), cnt + (k + 1) = 18 → b.length = 3 * (k + 1) →
      ∃ front r2,
        encode_go true EncStep.A r cnt b = (front ++ [10], ⟨EncStep.A, r2, 0⟩)
          ∧ front.length = 4 * (k + 1) ∧ 10 ∉ front := by
  induction k with
  | zero =>
      intro b r cnt hcnt hlen
      obtain ⟨b1, b2, b3, t, rfl⟩ := list_three_split b (by omega)
      have ht : t = [] := by
        simp only [List.length_cons] at hlen
        exact List.eq_nil_of_length_eq_zero (by omega)
      subst ht
      have hcnt17 : cnt + 1 = CHARS_PER_LINE / 4 := by
        simp [CHARS_PER_LINE]; omega
      refine ⟨[base64_encode_value ((b1 &&& 0xfc) >>> 2),
        base64_encode_value (((b1 &&& 0x3) <<< 4) ||| ((b2 &&& 0xf0) >>> 4)),
        base64_encode_value (((b2 &&& 0xf) <<< 2) ||| ((b3 &&& 0xc0) >>> 6)),
        base64_encode_value (b3 &&& 0x3f)], b3 &&& 0x3f, ?_, by simp, ?_⟩
      · simp only [encode_go, eq_self_iff_true, true_and, if_true]
        rw [if_pos hcnt17]
        simp [consOut]
      · intro hmem
        simp only [List.mem_cons, List.not_mem_nil, or_false] at hmem
        rcases hmem with h | h | h | h <;> exact encode_value_ne_nl _ h.symm
  | succ k ih =>
      intro b r cnt hcnt hlen
      obtain ⟨b1, b2, b3, t, rfl⟩ := list_three_split b (by omega)
      have htlen : t.length = 3 * (k + 1) := by
        simp only [List.length_cons] at hlen
        omega
      have hne : ¬ cnt + 1 = CHARS_PER_LINE / 4 := by
        simp [CHARS_PER_LINE]; omega
      obtain ⟨front, r2, heq, hflen, hfnot⟩ := ih t (b3 &&& 0x3f) (cnt + 1) (by omega) htlen
      refine ⟨base64_encode_value ((b1 &&& 0xfc) >>> 2)
          :: base64_encode_value (((b1 &&& 0x3) <<< 4) ||| ((b2 &&& 0xf0) >>> 4))
          :: base64_encode_value (((b2 &&& 0xf) <<< 2) ||| ((b3 &&& 0xc0) >>> 6))
          :: base64_encode_value (b3 &&& 0x3f)
          :: front, r2, ?_, by simp [hflen]; omega, ?_⟩
      · simp only [encode_go, eq_self_iff_true, true_and, if_true]
        rw [if_neg hne]
        simp [consOut, heq]
      · intro hmem
        simp only [List.mem_cons] at hmem
        rcases hmem with h | h | h | h | h
        · exact encode_value_ne_nl _ h.symm
        · exact encode_value_ne_nl _ h.symm
        · exact encode_value_ne_nl _ h.symm
        · exact encode_value_ne_nl _ h.symm
        · exact hfnot h

/-- Claim C8: with line breaks on, a 54-byte input encodes to 72 characters
    followed by exactly one trailing newline and none before it; a 55-byte
    input encodes with exactly one embedded newline right after the 72nd
    character and one trailing newline, and no other newline. -/
theorem claim_C8_wrap_boundary :
    (∀ b : List Nat, b.length = 54 →
      ∃ d, base64Encode b true = d ++ [10] ∧ d.length = 72 ∧ 10 ∉ d)
    ∧ (∀ b : List Nat, b.length = 55 →
      ∃ d1 d2, base64Encode b true = d1 ++ [10] ++ d2 ++ [10]
        ∧ d1.length = 72 ∧ d2.length = 4 ∧ 10 ∉ d1 ∧ 10 ∉ d2) := by
  constructor
  · intro b hlen
    obtain ⟨front, r2, heq, hflen, hfnot⟩ :=
      encode_wrap_line 17 b 0 0 (by omega) (by omega)
    have e : base64Encode b true
        = (encode_go true EncStep.A 0 0 b).1
          ++ base64_encode_blockend (encode_go true EncStep.A 0 0 b).2 true := rfl
    rw [e, heq]
    exact ⟨front, by simp [base64_encode_blockend], by omega, hfnot⟩
  · intro b hlen
    have htake : (b.take 54).length = 54 := by simp [hlen]
    have hdrop : (b.drop 54).length = 1 := by simp [hlen]
    obtain ⟨x, hx⟩ : ∃ x, b.drop 54 = [x] := by
      match hd : b.drop 54 with
      | [x] => exact ⟨x, rfl⟩
      | [] => rw [hd] at hdrop; simp at hdrop
      | x :: y :: t => rw [hd] at hdrop; simp at hdrop
    obtain ⟨front, r2, heq, hflen, hfnot⟩ :=
      encode_wrap_line 17 (b.take 54) 0 0 (by omega) (by omega)
    have e : base64Encode b true
        = (encode_go true EncStep.A 0 0 b).1
          ++ base64_encode_blockend (encode_go true EncStep.A 0 0 b).2 true := rfl
    have e2 : encode_go true EncStep.A 0 0 b
        = encode_go true EncStep.A 0 0 (b.take 54 ++ b.drop 54) := by
      rw [List.take_append_drop]
    refine ⟨front, [base64_encode_value ((x &&& 0xfc) >>> 2),
      base64_encode_value ((x &&& 0x3) <<< 4), 61, 61], ?_, by omega, by simp,
      hfnot, ?_⟩
    · rw [e, e2, encode_go_append (b.drop 54) true (b.take 54) EncStep.A 0 0, heq, hx]
      simp [encode_go, consOut, base64_encode_blockend, List.append_assoc]
    · intro hmem
      simp only [List.mem_cons, List.not_mem_nil, or_false] at hmem
      rcases hmem with h | h | h | h
      · exact encode_value_ne_nl _ h.symm
      · exact encode_value_ne_nl _ h.symm
      · omega
      · omega

/-! ### Invalid characters are skipped; decoded byte counts -/

theorem isValidB64_iff (c : Nat) :
    isValidB64 c = true ↔ ∃ f, base64_decode_value c = some f ∧ 0 ≤ f := by
  cases hv : base64_decode_value c <;> simp [isValidB64, hv]

theorem decode_block_cons_a (pend ch : Nat) (rest : List Nat) (f : Int)
    (hf : base64_decode_value ch = some f) (hpos : ¬ f < 0) :
    base64_decode_block DecStep.a pend (ch :: rest)
      = base64_decode_block DecStep.b ((f.toNat &&& 0x3f) <<< 2) rest := by
  simp only [base64_decode_block, hf]
  rw [if_neg hpos]

theorem decode_block_cons_b (pend ch : Nat) (rest : List Nat) (f : Int)
    (hf : base64_decode_value ch = some f) (hpos : ¬ f < 0) :
    base64_decode_block DecStep.b pend (ch :: rest)
      = Option.map (fun l => (pend ||| ((f.toNat &&& 0x30) >>> 4)) :: l)
          (base64_decode_block DecStep.c ((f.toNat &&& 0xf) <<< 4) rest) := by
  simp only [base64_decode_block, hf]
  rw [if_neg hpos]

theorem decode_block_cons_c (pend ch : Nat) (rest : List Nat) (f : Int)
    (hf : base64_decode_value ch = some f) (hpos : ¬ f < 0) :
    base64_decode_block DecStep.c pend (ch :: rest)
      = Option.map (fun l => (pend ||| ((f.toNat &&& 0x3c) >>> 2)) :: l)
          (base64_decode_block DecStep.d ((f.toNat &&& 0x3) <<< 6) rest) := by
  simp only [base64_decode_block, hf]
  rw [if_neg hpos]

theorem decode_block_cons_d (pend ch : Nat) (rest : List Nat) (f : Int)
    (hf : base64_decode_value ch = some f) (hpos : ¬ f < 0) :
    base64_decode_block DecStep.d pend (ch :: rest)
      = Option.map (fun l => (pend ||| (f.toNat &&& 0x3f)) :: l)
          (base64_decode_block DecStep.a 0 rest) := by
  simp only [base64_decode_block, hf]
  rw [if_neg hpos]

theorem decode_block_filter :
    ∀ (t : List Nat), (∀ c ∈ t, (base64_decode_value c).isSome = true) →
      ∀ (s : DecStep) (pend : Nat),
        base64_decode_block s pend t
          = base64_decode_block s pend (t.filter isValidB64)
  | [], _, s, pend => by simp
  | ch :: rest, h, s, pend => by
      have hch : (base64_decode_value ch).isSome = true := h ch (by simp)
      obtain ⟨f, hf⟩ := Option.isSome_iff_exists.mp hch
      have hrest : ∀ c ∈ rest, (base64_decode_value c).isSome = true :=
        fun c hc => h c (by simp [hc])
      by_cases hneg : f < 0
      · have hfil : isValidB64 ch = false := by
          simp [isValidB64, hf, decide_eq_false_iff_not]
          omega
        rw [decode_block_skip s pend ch rest f hf hneg]
        rw [List.filter_cons_of_neg (by simp [hfil])]
        exact decode_block_filter rest hrest s pend
      · have hfil : isValidB64 ch = true := by
          simp [isValidB64, hf, decide_eq_true_eq]
          omega
        rw [List.filter_cons_of_pos (by simp [hfil])]
        cases s
        · rw [decode_block_cons_a pend ch rest f hf hneg,
            decode_block_cons_a pend ch (rest.filter isValidB64) f hf hneg]
          exact decode_block_filter rest hrest _ _
        · rw [decode_block_cons_b pend ch rest f hf hneg,
            decode_block_cons_b pend ch (rest.filter isValidB64) f hf hneg,
            decode_block_filter rest hrest _ _]
        · rw [decode_block_cons_c pend ch rest f hf hneg,
            decode_block_cons_c pend ch (rest.filter isValidB64) f hf hneg,
            decode_block_filter rest hrest _ _]
        · rw [decode_block_cons_d pend ch rest f hf hneg,
            decode_block_cons_d pend ch (rest.filter isValidB64) f hf hneg,
            decode_block_filter rest hrest _ _]

theorem decode_block_allvalid_len :
    ∀ (t : List Nat), (∀ c ∈ t, isValidB64 c = true) →
      ∀ (s : DecStep) (pend : Nat),
      ∃ bs, base64_decode_block s pend t = some bs
        ∧ bs.length + decBytesDone s = 3 * (t.length + decCharsSeen s) / 4
  | [], _, s, pend =>
      ⟨[], decode_block_nil s pend, by
        cases s <;> simp [decBytesDone, decCharsSeen]⟩
  | ch :: rest, h, s, pend => by
      obtain ⟨f, hf, hpos⟩ := (isValidB64_iff ch).mp (h ch (by simp))
      have hneg : ¬ f < 0 := not_lt.mpr hpos
      have hrest : ∀ c ∈ rest, isValidB64 c = true := fun c hc => h c (by simp [hc])
      cases s
      · obtain ⟨bs, hbs, hlen⟩ :=
          decode_block_allvalid_len rest hrest DecStep.b ((f.toNat &&& 0x3f) <<< 2)
        refine ⟨bs, ?_, ?_⟩
        · rw [decode_block_cons_a pend ch rest f hf hneg]
          exact hbs
        · simp only [decBytesDone, decCharsSeen, List.length_cons] at hlen ⊢
          omega
      · obtain ⟨bs, hbs, hlen⟩ :=
          decode_block_allvalid_len rest hrest DecStep.c ((f.toNat &&& 0xf) <<< 4)
        refine ⟨(pend ||| ((f.toNat &&& 0x30) >>> 4)) :: bs, ?_, ?_⟩
        · rw [decode_block_cons_b pend ch rest f hf hneg, hbs]
          rfl
        · simp only [decBytesDone, decCharsSeen, List.length_cons] at hlen ⊢
          omega
      · obtain ⟨bs, hbs, hlen⟩ :=
          decode_block_allvalid_len rest hrest DecStep.d ((f.toNat &&& 0x3) <<< 6)
        refine ⟨(pend ||| ((f.toNat &&& 0x3c) >>> 2)) :: bs, ?_, ?_⟩
        · rw [decode_block_cons_c pend ch rest f hf hneg, hbs]
          rfl
        · simp only [decBytesDone, decCharsSeen, List.length_cons] at hlen ⊢
          omega
      · obtain ⟨bs, hbs, hlen⟩ :=
          decode_block_allvalid_len rest hrest DecStep.a 0
        refine ⟨(pend ||| (f.toNat &&& 0x3f)) :: bs, ?_, ?_⟩
        · rw [decode_block_cons_d pend ch rest f hf hneg, hbs]
          rfl
        · simp only [decBytesDone, decCharsSeen, List.length_cons] at hlen ⊢
          omega

/-- Claim C3 (code evaluation at the failing input): byte 123 passes the
    off-by-one bounds check (index 80 is allowed while the table has 80
    entries), so its table read is out of bounds, modelled as none; every
    other byte value is looked up or rejected without an out-of-bounds
    access. -/
theorem claim_C3_oob_eval :
    base64_decode_value 123 = none
      ∧ ((List.range 256).all
          fun c => (c == 123) || (base64_decode_value c).isSome) = true := by
  decide

/-- Claim C4 (code evaluation at the failing inputs): with every output
    buffer access bounds-checked, decoding the empty string fails (the
    carry store touches index 0 of a zero-byte buffer), decoding four valid
    characters fails (the final carry save reads one byte past the buffer),
    while e.g. "TWE=" decodes with all accesses in bounds. -/
theorem claim_C4_buffer_eval :
    base64Decode_checked [] = none
      ∧ base64Decode_checked (asciiOf "TWFu") = none
      ∧ base64Decode_checked (asciiOf "TWE=") = some 2 := by decide

/-- Counterexample for claim C7 as stated: on the one-byte input 123 the
    decoder's table lookup goes out of bounds (modelled as none), so the
    result differs from decoding the subsequence of valid characters (the
    empty sequence, which decodes to some []). -/
theorem claim_C7_counterexample :
    ¬ base64Decode [123] = base64Decode (List.filter isValidB64 [123]) := by
  decide

/-- Claim C7 (amended): for inputs whose table lookups are all defined
    (every byte except 123), base64Decode equals base64Decode of the
    subsequence of valid characters; and the concrete garbage- and
    whitespace-tolerance examples hold. -/
theorem claim_C7_amended :
    (∀ t : List Nat, (∀ c ∈ t, (base64_decode_value c).isSome = true) →
      base64Decode t = base64Decode (t.filter isValidB64))
    ∧ base64Decode (asciiOf "T!W@F#u") = base64Decode (asciiOf "TWFu")
    ∧ base64Decode (asciiOf "TWFu\nbg==") = some [77, 97, 110, 110] := by
  refine ⟨fun t h => decode_block_filter t h DecStep.a 0, by decide, by decide⟩

/-- Witness for claim C7 at a concrete input containing invalid characters. -/
theorem claim_C7_amended_witness :
    base64Decode (asciiOf "TWFu\nbg==")
      = base64Decode ((asciiOf "TWFu\nbg==").filter isValidB64) :=
  claim_C7_amended.1 (asciiOf "TWFu\nbg==") (by decide)

/-- Counterexample for claim C10 as stated: on the one-byte input 123 the
    decoder's table lookup goes out of bounds (modelled as none), so no
    byte sequence at all is returned. -/
theorem claim_C10_counterexample : base64Decode [123] = none := by decide

/-- Claim C10 (amended): for inputs whose table lookups are all defined
    (every byte except 123), base64Decode returns exactly
    floor(3 * k / 4) bytes where k counts the valid characters; in
    particular a trailing fragment of one valid character adds no byte. -/
theorem claim_C10_amended (t : List Nat)
    (h : ∀ c ∈ t, (base64_decode_value c).isSome = true) :
    ∃ bs, base64Decode t = some bs ∧ bs.length = 3 * validCount t / 4 := by
  have hfil := decode_block_filter t h DecStep.a 0
  have hval : ∀ c ∈ t.filter isValidB64, isValidB64 c = true :=
    fun c hc => (List.mem_filter.mp hc).2
  obtain ⟨bs, hbs, hlen⟩ :=
    decode_block_allvalid_len (t.filter isValidB64) hval DecStep.a 0
  refine ⟨bs, ?_, ?_⟩
  · rw [base64Decode, hfil]
    exact hbs
  · simpa [validCount, decBytesDone, decCharsSeen] using hlen

/-- Witness for claim C10: "TWFu\nbg==" has 8 valid characters and decodes
    to 6 bytes. -/
theorem claim_C10_amended_witness :
    ∃ bs, base64Decode (asciiOf "TWFu\nbg==") = some bs
      ∧ bs.length = 3 * validCount (asciiOf "TWFu\nbg==") / 4 :=
  claim_C10_amended (asciiOf "TWFu\nbg==") (by decide)

/-- Witness for claim C8 at the all-zero inputs of 54 and 55 bytes. -/
theorem claim_C8_wrap_boundary_witness :
    (∃ d, base64Encode (List.replicate 54 0) true = d ++ [10]
        ∧ d.length = 72 ∧ 10 ∉ d)
    ∧ (∃ d1 d2, base64Encode (List.replicate 55 0) true
          = d1 ++ [10] ++ d2 ++ [10]
        ∧ d1.length = 72 ∧ d2.length = 4 ∧ 10 ∉ d1 ∧ 10 ∉ d2) :=
  ⟨claim_C8_wrap_boundary.1 (List.replicate 54 0) (by simp),
   claim_C8_wrap_boundary.2 (List.replicate 55 0) (by simp)⟩
